import Mathlib

/-!
Verification of the access_reader repository (an assistive document-reading
session engine). The TypeScript sources are shallowly embedded: JS strings are
modelled as `List Char`, JS numbers holding paragraph indices as `Int`
(`null` becomes `Option`), and the React component state together with its
imperative side effects (speech-engine calls, scrolling) is modelled as a
state-passing step function that also returns the list of emitted effects.
JS `\s` is modelled over the ASCII whitespace characters recognised by
`Char.isWhitespace`; `Math.ceil (0.4 * L)` is modelled by the exact rational
ceiling `(2 * L + 4) / 5`, which agrees with the IEEE-double computation for
every word length that can occur.
-/

/-- Whitespace test used throughout (model of the JS `\s` character class and
of the whitespace set removed by `String.prototype.trim`). -/
def isWs (c : Char) : Bool := c.isWhitespace

/-- Model of `text.split('\n')` from `Reader.tsx` line 69: split a character
list at every newline, keeping empty segments (JS `split` semantics). -/
def splitLines : List Char → List (List Char)
  | [] => [[]]
  | c :: rest =>
    if c = '\n' then [] :: splitLines rest
    else
      match splitLines rest with
      | [] => [[c]]
      | l :: ls => (c :: l) :: ls

/-- Model of `String.prototype.trim`: drop whitespace from both ends. -/
def jsTrim (s : List Char) : List Char :=
  ((s.dropWhile isWs).reverse.dropWhile isWs).reverse

/-- Paragraph segmenter, `Reader.tsx` line 69:
`content.split('\n').filter(line => line.trim().length > 0)`. -/
def segmentContent (content : List Char) : List (List Char) :=
  (splitLines content).filter (fun line => 0 < (jsTrim line).length)

/-- One stored highlight range (`types.ts`, interface `Highlight`).
The `end` field is renamed `stop` because `end` is a Lean keyword. -/
structure Highlight where
  start : Nat
  stop : Nat
  text : List Char
  id : List Char
deriving DecidableEq, Repr

/-- Highlight store: paragraph index to highlight list (`App.tsx` line 28). -/
def HighlightStore : Type := Nat → List Highlight

/-- Model of `addHighlight` from `App.tsx` lines 207-215: unconditionally
append the given range to the paragraph's list.  The generated id
(`Date.now().toString()` in the source) is passed in as a parameter. -/
def addHighlight (store : HighlightStore) (index start stop : Nat)
    (text id : List Char) : HighlightStore :=
  fun i => if i = index then store i ++ [⟨start, stop, text, id⟩] else store i

/-- Model of `removeHighlight` from `App.tsx` lines 217-225. -/
def removeHighlight (store : HighlightStore) (index : Nat) (id : List Char) :
    HighlightStore :=
  fun i => if i = index then (store i).filter (fun h => h.id ≠ id) else store i

/-- The documented well-formedness invariant for a highlight on a paragraph
with text `ptext`: `0 ≤ start < end ≤ len(text)` (the lower bound is implicit
in the `Nat` representation). -/
def ValidRange (h : Highlight) (ptext : List Char) : Prop :=
  h.start < h.stop ∧ h.stop ≤ ptext.length

instance (h : Highlight) (ptext : List Char) : Decidable (ValidRange h ptext) := by
  unfold ValidRange; infer_instance

/-- Toolbar font-decrease button, `Toolbar.tsx` line 119:
`Math.max(12, settings.fontSize - 2)`. -/
def toolbarFontDecrease (fontSize : Int) : Int := max 12 (fontSize - 2)

/-- Toolbar font-increase button, `Toolbar.tsx` line 127:
`Math.min(64, settings.fontSize + 2)`. -/
def toolbarFontIncrease (fontSize : Int) : Int := min 64 (fontSize + 2)

/-- Ctrl/Cmd plus keyboard zoom, `App.tsx` line 40:
`Math.min(s.fontSize + 2, 72)`. -/
def zoomInShortcut (fontSize : Int) : Int := min (fontSize + 2) 72

/-- Ctrl/Cmd minus keyboard zoom, `App.tsx` line 44:
`Math.max(s.fontSize - 2, 12)`. -/
def zoomOutShortcut (fontSize : Int) : Int := max (fontSize - 2) 12

/-- Length of `dropWhile` never exceeds the input length (termination helper). -/
theorem length_dropWhile_le' (p : Char → Bool) (l : List Char) :
    (l.dropWhile p).length ≤ l.length := by
  induction l with
  | nil => simp [List.dropWhile]
  | cons c cs ih =>
    simp only [List.dropWhile]
    cases p c <;> simp <;> omega

/-- Model of `text.split(/(\s+)/)` from `Reader.tsx` line 455: the segments
between maximal whitespace runs interleaved with the (captured) runs
themselves.  Position 0, 2, 4, ... hold whitespace-free tokens (possibly empty
at either edge), positions 1, 3, ... hold the nonempty whitespace runs. -/
def jsSplitWs (s : List Char) : List (List Char) :=
  match h : s.dropWhile (fun c => !isWs c) with
  | [] => [s.takeWhile (fun c => !isWs c)]
  | c :: rest =>
    s.takeWhile (fun c => !isWs c) ::
      (c :: rest.takeWhile isWs) :: jsSplitWs (rest.dropWhile isWs)
termination_by s.length
decreasing_by
  have h1 : (s.dropWhile (fun c => !isWs c)).length ≤ s.length :=
    length_dropWhile_le' _ s
  have h2 : (rest.dropWhile isWs).length ≤ rest.length :=
    length_dropWhile_le' _ rest
  rw [h] at h1
  simp at h1
  omega

/-- Bold-prefix length for a token of length `length`, `Reader.tsx` lines
462-466.  `Math.ceil(length * 0.4)` is modelled by the exact ceiling
`(2 * length + 4) / 5`; the IEEE-double computation in the source agrees with
it for every token length below two million. -/
def boldLength (length : Nat) : Nat :=
  if length = 1 then 1
  else if length ≤ 3 then 1
  else if length ≤ 5 then 2
  else (2 * length + 4) / 5

/-- One output piece of the bionic transform: either an untouched whitespace
run or a token split into an emphasized prefix and a de-emphasized suffix. -/
inductive BPart where
  | ws (run : List Char)
  | word (bold plain : List Char)
deriving DecidableEq, Repr

/-- Model of `applyBionicReading` (bionic flag on), `Reader.tsx` lines 451-478:
split on whitespace runs; return whitespace parts unchanged (the JS test
`/^\s+$/` holds exactly for nonempty all-whitespace parts); split every other
part after `boldLength` characters. -/
def applyBionicReading (s : List Char) : List BPart :=
  (jsSplitWs s).map fun part =>
    if !part.isEmpty && part.all isWs then .ws part
    else .word (part.take (boldLength part.length))
               (part.drop (boldLength part.length))

/-- Character content of a bionic piece. -/
def bpartChars : BPart → List Char
  | .ws run => run
  | .word bold plain => bold ++ plain

/-- The rendered text pieces of a bionic piece, in order (the `<b>` prefix and
the de-emphasized `<span>` suffix are separate DOM runs). -/
def bpartPieces : BPart → List (List Char)
  | .ws run => [run]
  | .word bold plain => [bold, plain]

/-- Concatenation of a list of character lists. -/
def joinL : List (List Char) → List Char
  | [] => []
  | l :: ls => l ++ joinL ls

theorem joinL_append (a b : List (List Char)) :
    joinL (a ++ b) = joinL a ++ joinL b := by
  induction a with
  | nil => simp [joinL]
  | cons x xs ih => simp [joinL, ih]

/-- Unfolding equation of `jsSplitWs` when the input has no whitespace. -/
theorem jsSplitWs_eq_nil (s : List Char)
    (h : s.dropWhile (fun c => !isWs c) = []) :
    jsSplitWs s = [s.takeWhile (fun c => !isWs c)] := by
  rw [jsSplitWs.eq_def]
  split
  · rfl
  · rename_i c rest heq
    rw [h] at heq
    cases heq

/-- Unfolding equation of `jsSplitWs` at the first whitespace run. -/
theorem jsSplitWs_eq_cons (s : List Char) (c : Char) (rest : List Char)
    (h : s.dropWhile (fun c => !isWs c) = c :: rest) :
    jsSplitWs s =
      s.takeWhile (fun c => !isWs c) ::
        (c :: rest.takeWhile isWs) :: jsSplitWs (rest.dropWhile isWs) := by
  rw [jsSplitWs.eq_def]
  split
  · rename_i heq
    rw [h] at heq
    cases heq
  · rename_i c' rest' heq
    rw [h] at heq
    cases heq
    rfl

/-- The whitespace splitter loses no characters: joining its output restores
the input string. -/
theorem joinL_jsSplitWs (s : List Char) : joinL (jsSplitWs s) = s := by
  induction s using jsSplitWs.induct with
  | case1 s h =>
    rw [jsSplitWs_eq_nil s h]
    have h1 := List.takeWhile_append_dropWhile (p := fun c => !isWs c) (l := s)
    rw [h] at h1
    simpa [joinL] using h1
  | case2 s c rest h ih =>
    rw [jsSplitWs_eq_cons s c rest h]
    simp only [joinL, ih]
    have h1 := List.takeWhile_append_dropWhile (p := fun c => !isWs c) (l := s)
    have h2 := List.takeWhile_append_dropWhile (p := isWs) (l := rest)
    rw [h] at h1
    calc s.takeWhile (fun c => !isWs c) ++
          (c :: rest.takeWhile isWs ++ rest.dropWhile isWs)
        = s.takeWhile (fun c => !isWs c) ++
          (c :: (rest.takeWhile isWs ++ rest.dropWhile isWs)) := by simp
      _ = s.takeWhile (fun c => !isWs c) ++ (c :: rest) := by rw [h2]
      _ = s := h1

/-- Model of `text.slice(a, b)` for non-negative JS indices: both bounds clamp
to the string length and an empty slice results when `b ≤ a`. -/
def jsSlice (s : List Char) (a b : Nat) : List Char :=
  (s.drop a).take (b - a)

/-- One rendered text run of a paragraph: ordinary text or a `<mark>`
highlighted span. -/
inductive Run where
  | plain (s : List Char)
  | highlighted (s : List Char)
deriving DecidableEq, Repr

/-- Stable insertion of a highlight into an already sorted suffix: the
element (which comes from an earlier position of the original list) is placed
before the first element of greater-or-equal `start`, hence before existing
equal ones — matching the stable JS `Array.prototype.sort`. -/
def insertByStart (h : Highlight) : List Highlight → List Highlight
  | [] => [h]
  | x :: xs => if h.start ≤ x.start then h :: x :: xs else x :: insertByStart h xs

/-- Stable sort by `start` ascending; model of
`[...paragraphHighlights].sort((a, b) => a.start - b.start)` at
`Reader.tsx` line 487 (JS `Array.prototype.sort` is stable). -/
def sortByStart : List Highlight → List Highlight
  | [] => []
  | x :: xs => insertByStart x (sortByStart xs)

/-- The `sorted.forEach` walk of `Reader.tsx` lines 491-527, including the
trailing plain run: skip any highlight starting before `lastIndex`; otherwise
emit the plain gap (when nonempty) and the highlighted span, then continue
from the highlight's end. -/
def renderWalk (text : List Char) (lastIndex : Nat) :
    List Highlight → List Run
  | [] =>
    if lastIndex < text.length then [Run.plain (text.drop lastIndex)] else []
  | h :: rest =>
    if h.start < lastIndex then renderWalk text lastIndex rest
    else
      (if lastIndex < h.start
        then [Run.plain (jsSlice text lastIndex h.start)] else []) ++
      Run.highlighted (jsSlice text h.start h.stop) ::
        renderWalk text h.stop rest

/-- Model of `renderParagraphContent` from `Reader.tsx` lines 480-530,
abstracted over the bionic flag (applied per run afterwards): with no
highlights, the whole text is a single plain run; otherwise the overlap-
resolving walk over the sorted highlight list. -/
def renderParagraphContent (text : List Char) (hs : List Highlight) :
    List Run :=
  if hs.isEmpty then [Run.plain text] else renderWalk text 0 (sortByStart hs)

/-- Character content of a run. -/
def runContent : Run → List Char
  | .plain s => s
  | .highlighted s => s

/-- Full render pipeline of a paragraph: the highlight-resolved runs, each
passed through the bionic transform when the flag is on (`Reader.tsx`
lines 484, 499, 512, 524).  The result is the ordered list of rendered text
pieces. -/
def renderPieces (bionic : Bool) (text : List Char) (hs : List Highlight) :
    List (List Char) :=
  (renderParagraphContent text hs).flatMap fun r =>
    if bionic then (applyBionicReading (runContent r)).flatMap bpartPieces
    else [runContent r]

/-- Dropping past the end yields the empty list (helper). -/
theorem drop_len_le (s : List Char) (n : Nat) (h : s.length ≤ n) :
    s.drop n = [] := by
  apply List.eq_nil_of_length_eq_zero
  simp [Nat.sub_eq_zero_of_le h]

/-- A slice followed by the drop at its upper bound reassembles the drop at
its lower bound. -/
theorem jsSlice_append_drop (s : List Char) (a b : Nat) (hab : a ≤ b) :
    jsSlice s a b ++ s.drop b = s.drop a := by
  unfold jsSlice
  have h1 : (s.drop a).drop (b - a) = s.drop b := by
    rw [List.drop_drop]
    congr 1
    omega
  calc (s.drop a).take (b - a) ++ s.drop b
      = (s.drop a).take (b - a) ++ (s.drop a).drop (b - a) := by rw [h1]
    _ = s.drop a := List.take_append_drop _ _

/-- The walk emits every character from `lastIndex` on, exactly once, provided
every highlight satisfies `start ≤ end`. -/
theorem joinL_renderWalk (text : List Char) :
    ∀ (hs : List Highlight) (lastIndex : Nat),
      (∀ h ∈ hs, h.start ≤ h.stop) →
      joinL ((renderWalk text lastIndex hs).map runContent) =
        text.drop lastIndex := by
  intro hs
  induction hs with
  | nil =>
    intro lastIndex _
    by_cases hlt : lastIndex < text.length
    · simp [renderWalk, hlt, joinL, runContent]
    · simp [renderWalk, hlt, joinL, drop_len_le text lastIndex (by omega)]
  | cons h rest ih =>
    intro lastIndex hvalid
    have hrest : ∀ x ∈ rest, x.start ≤ x.stop := by
      intro x hx
      exact hvalid x (List.mem_cons_of_mem _ hx)
    have hh : h.start ≤ h.stop := hvalid h (List.mem_cons_self _ _)
    by_cases hskip : h.start < lastIndex
    · simp only [renderWalk, if_pos hskip]
      exact ih lastIndex hrest
    · have hle : lastIndex ≤ h.start := by omega
      by_cases hgap : lastIndex < h.start
      · simp only [renderWalk, if_neg hskip, if_pos hgap]
        simp only [List.map_append, List.map_cons, joinL_append, joinL,
          runContent, ih h.stop hrest]
        rw [jsSlice_append_drop text h.start h.stop hh,
          jsSlice_append_drop text lastIndex h.start hle]
      · have heq : lastIndex = h.start := by omega
        simp only [renderWalk, if_neg hskip, if_neg hgap]
        simp only [List.map_cons, joinL, runContent, ih h.stop hrest]
        rw [jsSlice_append_drop text h.start h.stop hh, heq]

/-- Each bionic piece reassembles exactly its source part. -/
theorem joinL_bpartPieces (p : BPart) : joinL (bpartPieces p) = bpartChars p := by
  cases p with
  | ws run => simp [bpartPieces, bpartChars, joinL]
  | word bold plain => simp [bpartPieces, bpartChars, joinL]

/-- The bionic transform restyles but never changes characters: joining all of
its rendered pieces restores the input string. -/
theorem joinL_bionic (s : List Char) :
    joinL ((applyBionicReading s).flatMap bpartPieces) = s := by
  unfold applyBionicReading
  rw [List.flatMap_map]
  have : ∀ parts : List (List Char),
      joinL (parts.flatMap fun part =>
        bpartPieces (if !part.isEmpty && part.all isWs then BPart.ws part
          else BPart.word (part.take (boldLength part.length))
            (part.drop (boldLength part.length)))) = joinL parts := by
    intro parts
    induction parts with
    | nil => simp [joinL]
    | cons p ps ih =>
      rw [List.flatMap_cons, joinL_append, ih]
      by_cases hc : (!p.isEmpty && p.all isWs) = true
      · simp [hc, bpartPieces, joinL]
      · simp only [Bool.not_eq_true] at hc
        simp [hc, bpartPieces, joinL]
  rw [this, joinL_jsSplitWs]

/-- Membership in a stable insertion. -/
theorem mem_insertByStart (a h : Highlight) (l : List Highlight) :
    a ∈ insertByStart h l ↔ a = h ∨ a ∈ l := by
  induction l with
  | nil => simp [insertByStart]
  | cons x xs ih =>
    by_cases hc : h.start ≤ x.start
    · rw [insertByStart, if_pos hc]
      simp only [List.mem_cons]
    · rw [insertByStart, if_neg hc]
      simp only [List.mem_cons, ih]
      tauto

/-- Membership is preserved by the stable sort. -/
theorem mem_sortByStart (a : Highlight) (l : List Highlight) :
    a ∈ sortByStart l ↔ a ∈ l := by
  induction l with
  | nil => simp [sortByStart]
  | cons x xs ih =>
    simp [sortByStart, mem_insertByStart, ih]

/-- Stable insertion preserves multiset contents. -/
theorem perm_insertByStart (h : Highlight) (l : List Highlight) :
    (insertByStart h l).Perm (h :: l) := by
  induction l with
  | nil => simp [insertByStart]
  | cons x xs ih =>
    by_cases hc : h.start ≤ x.start
    · simp [insertByStart, hc]
    · rw [insertByStart, if_neg hc]
      exact (ih.cons x).trans (List.Perm.swap h x xs)

/-- Stable insertion preserves sortedness by `start`. -/
theorem sorted_insertByStart (h : Highlight) (l : List Highlight)
    (hl : l.Pairwise (fun a b => a.start ≤ b.start)) :
    (insertByStart h l).Pairwise (fun a b => a.start ≤ b.start) := by
  induction l with
  | nil => simp [insertByStart]
  | cons x xs ih =>
    rcases List.pairwise_cons.mp hl with ⟨hx, hxs⟩
    by_cases hc : h.start ≤ x.start
    · rw [insertByStart, if_pos hc]
      refine List.pairwise_cons.mpr ⟨?_, hl⟩
      intro y hy
      rcases List.mem_cons.mp hy with rfl | hy'
      · omega
      · have := hx y hy'
        omega
    · rw [insertByStart, if_neg hc]
      refine List.pairwise_cons.mpr ⟨?_, ih hxs⟩
      intro y hy
      rcases (mem_insertByStart y h xs).mp hy with rfl | hy'
      · omega
      · exact hx y hy'

/-- `sortByStart` sorts by `start`, ascending. -/
theorem sorted_sortByStart (l : List Highlight) :
    (sortByStart l).Pairwise (fun a b => a.start ≤ b.start) := by
  induction l with
  | nil => simp [sortByStart]
  | cons x xs ih => exact sorted_insertByStart x (sortByStart xs) ih

/-- `sortByStart` permutes its input (no highlight duplicated or lost). -/
theorem perm_sortByStart (l : List Highlight) : (sortByStart l).Perm l := by
  induction l with
  | nil => simp [sortByStart]
  | cons x xs ih =>
    exact (perm_insertByStart x (sortByStart xs)).trans (ih.cons x)

/-- Inserting an element keeps it ahead of every equal-`start` element of the
suffix and does not disturb the relative order of the rest (stability core:
every element skipped on the way to the insertion point has strictly smaller
`start`). -/
theorem filter_insertByStart (h : Highlight) (l : List Highlight) (v : Nat) :
    (insertByStart h l).filter (fun x => x.start = v) =
      if h.start = v then h :: l.filter (fun x => x.start = v)
      else l.filter (fun x => x.start = v) := by
  induction l with
  | nil =>
    by_cases hv : h.start = v
    · simp [insertByStart, hv]
    · simp [insertByStart, hv]
  | cons x xs ih =>
    by_cases hc : h.start ≤ x.start
    · rw [insertByStart, if_pos hc]
      by_cases hv : h.start = v
      · simp [hv]
      · simp [hv]
    · rw [insertByStart, if_neg hc]
      by_cases hxv : x.start = v
      · have hv : ¬ h.start = v := by omega
        simp [hxv, hv, ih]
      · by_cases hv : h.start = v
        · simp [hxv, hv, ih]
        · simp [hxv, hv, ih]

/-- The stable sort preserves the relative order of equal-`start` highlights:
restricted to any fixed `start` value, the sorted list equals the input. -/
theorem stable_sortByStart (hs : List Highlight) (v : Nat) :
    (sortByStart hs).filter (fun x => x.start = v) =
      hs.filter (fun x => x.start = v) := by
  induction hs with
  | nil => rfl
  | cons x xs ih =>
    rw [sortByStart, filter_insertByStart x (sortByStart xs) v, ih]
    by_cases hv : x.start = v
    · simp [hv]
    · simp [hv]

/-- Interface settings touched by the voice commands (`types.ts`,
`ReaderSettings`; only the fields the modelled handlers read or write). -/
structure VSettings where
  isLoupeActive : Bool
  isFocusMode : Bool
  isBionicReading : Bool
deriving DecidableEq, Repr

/-- The `Reader` component state relevant to playback, navigation and voice
control (`Reader.tsx` lines 33-57): the paragraph list, the nullable active
paragraph index (JS `number | null`, hence `Option Int`), the `isSpeaking`
React state and the `isContinuousRef`/`isAutoAdvancingRef` mutable refs, the
last recognized transcript, and the settings record. -/
structure ReaderState where
  paragraphs : List (List Char)
  activeParagraphIndex : Option Int
  isSpeaking : Bool
  isContinuous : Bool
  isAutoAdvancing : Bool
  lastVoiceCommand : List Char
  settings : VSettings
deriving DecidableEq, Repr

/-- Observable side effects of the handlers: speech-engine cancellation,
utterance submission for a paragraph index, and scroll-into-view. -/
inductive Effect where
  | cancelEngine
  | speakUtterance (index : Int)
  | scrollIntoView (index : Int)
deriving DecidableEq, Repr

/-- The spec-level playback states of §4.4. -/
inductive PlaybackState where
  | Idle
  | SpeakingSingle
  | SpeakingContinuous
deriving DecidableEq, Repr

/-- Abstraction from the boolean flags to the spec's playback state. -/
def playbackState (s : ReaderState) : PlaybackState :=
  if s.isSpeaking then
    if s.isContinuous then .SpeakingContinuous else .SpeakingSingle
  else .Idle

/-- Model of `speakText` from `Reader.tsx` lines 88-121: out-of-range indices
are ignored; otherwise the engine is cancelled, `isSpeaking` is set and the
paragraph is submitted as a new utterance. -/
def speakText (s : ReaderState) (index : Int) : ReaderState × List Effect :=
  if 0 ≤ index ∧ index < s.paragraphs.length then
    ({ s with isSpeaking := true },
      [Effect.cancelEngine, Effect.speakUtterance index])
  else (s, [])

/-- Model of `handleStop` from `Reader.tsx` lines 141-146. -/
def handleStop (s : ReaderState) : ReaderState × List Effect :=
  ({ s with isSpeaking := false, isContinuous := false,
            isAutoAdvancing := false },
    [Effect.cancelEngine])

/-- Model of the `useEffect` on `activeParagraphIndex`, `Reader.tsx` lines
149-173: a programmatic (auto-advance) change consumes the flag, scrolls the
new paragraph into view and submits its utterance; a manual change while
speaking stops playback; anything else is inert. -/
def activeIndexEffect (s : ReaderState) : ReaderState × List Effect :=
  match s.activeParagraphIndex with
  | none => (s, [])
  | some i =>
    if s.isAutoAdvancing then
      ((speakText { s with isAutoAdvancing := false } i).1,
        Effect.scrollIntoView i ::
          (speakText { s with isAutoAdvancing := false } i).2)
    else if s.isSpeaking then handleStop s
    else (s, [])

/-- A `setActiveParagraphIndex` call followed by its effect: React bails out
when the new value equals the current one (the effect does not re-run), so the
watcher of `Reader.tsx` lines 149-173 only fires on an actual change. -/
def setActiveIndex (s : ReaderState) (i : Option Int) :
    ReaderState × List Effect :=
  if i = s.activeParagraphIndex then (s, [])
  else activeIndexEffect { s with activeParagraphIndex := i }

/-- Model of the `utterance.onend` closure of `Reader.tsx` lines 101-112, for
the utterance that spoke paragraph `index`: in continuous mode before the last
paragraph, mark the transition programmatic and advance the index (the index
watcher then scrolls and speaks); otherwise become idle. -/
def onUtteranceEnd (s : ReaderState) (index : Int) :
    ReaderState × List Effect :=
  if s.isContinuous ∧ index < (s.paragraphs.length : Int) - 1 then
    setActiveIndex { s with isAutoAdvancing := true } (some (index + 1))
  else ({ s with isSpeaking := false, isContinuous := false }, [])

/-- Model of the `utterance.onerror` closure of `Reader.tsx` lines 114-117. -/
def onUtteranceError (s : ReaderState) : ReaderState × List Effect :=
  ({ s with isSpeaking := false, isContinuous := false }, [])

/-- Model of `handleSpeakCurrent`, `Reader.tsx` lines 123-127. -/
def handleSpeakCurrent (s : ReaderState) : ReaderState × List Effect :=
  match s.activeParagraphIndex with
  | none => (s, [])
  | some i => speakText { s with isContinuous := false } i

/-- Model of `handleSpeakAll`, `Reader.tsx` lines 129-139. -/
def handleSpeakAll (s : ReaderState) : ReaderState × List Effect :=
  match s.activeParagraphIndex with
  | none =>
    setActiveIndex { s with isContinuous := true, isAutoAdvancing := true }
      (some 0)
  | some i => speakText { s with isContinuous := true } i

/-- Model of `handleParagraphClick`, `Reader.tsx` lines 422-424. -/
def handleParagraphClick (s : ReaderState) (index : Int) :
    ReaderState × List Effect :=
  setActiveIndex s (some index)

/-- Target index of the ArrowDown/`n` key handler, `Reader.tsx` line 345:
`prev === null ? 0 : min(paragraphs.length - 1, prev + 1)`. -/
def arrowDownTarget (s : ReaderState) : Int :=
  match s.activeParagraphIndex with
  | none => 0
  | some p => min ((s.paragraphs.length : Int) - 1) (p + 1)

/-- Target index of the ArrowUp/`p` key handler, `Reader.tsx` line 355:
`prev === null ? 0 : max(0, prev - 1)`. -/
def arrowUpTarget (s : ReaderState) : Int :=
  match s.activeParagraphIndex with
  | none => 0
  | some p => max 0 (p - 1)

/-- Model of the ArrowDown/`n` key handler, `Reader.tsx` lines 342-350: the
target index (0 when nothing is active), scrolled unconditionally inside the
state updater. -/
def arrowDownKey (s : ReaderState) : ReaderState × List Effect :=
  if 0 < s.paragraphs.length then
    ((setActiveIndex s (some (arrowDownTarget s))).1,
      Effect.scrollIntoView (arrowDownTarget s) ::
        (setActiveIndex s (some (arrowDownTarget s))).2)
  else (s, [])

/-- Model of the ArrowUp/`p` key handler, `Reader.tsx` lines 352-360. -/
def arrowUpKey (s : ReaderState) : ReaderState × List Effect :=
  if 0 < s.paragraphs.length then
    ((setActiveIndex s (some (arrowUpTarget s))).1,
      Effect.scrollIntoView (arrowUpTarget s) ::
        (setActiveIndex s (some (arrowUpTarget s))).2)
  else (s, [])

/-- Target index of the voice command `next`, `Reader.tsx` lines 186-196:
`min(paragraphs.length - 1, (prev ?? -1) + 1)`. -/
def voiceNextTarget (s : ReaderState) : Int :=
  min ((s.paragraphs.length : Int) - 1)
    ((match s.activeParagraphIndex with | none => -1 | some p => p) + 1)

/-- Target index of the voice commands `previous`/`back`, `Reader.tsx` lines
197-206: `max(0, (prev ?? 0) - 1)`. -/
def voicePrevTarget (s : ReaderState) : Int :=
  max 0 ((match s.activeParagraphIndex with | none => 0 | some p => p) - 1)

/-- Voice `next` navigation: scroll fires only when the index changes. -/
def voiceNext (s : ReaderState) : ReaderState × List Effect :=
  ((setActiveIndex s (some (voiceNextTarget s))).1,
    (if some (voiceNextTarget s) ≠ s.activeParagraphIndex
      then [Effect.scrollIntoView (voiceNextTarget s)] else []) ++
    (setActiveIndex s (some (voiceNextTarget s))).2)

/-- Voice `previous`/`back` navigation. -/
def voicePrev (s : ReaderState) : ReaderState × List Effect :=
  ((setActiveIndex s (some (voicePrevTarget s))).1,
    (if some (voicePrevTarget s) ≠ s.activeParagraphIndex
      then [Effect.scrollIntoView (voicePrevTarget s)] else []) ++
    (setActiveIndex s (some (voicePrevTarget s))).2)

/-- Model of JS `hay.includes(needle)`: substring containment. -/
def containsSub (hay needle : List Char) : Bool :=
  hay.tails.any (fun t => needle.isPrefixOf t)

def kwNext : List Char := "next".toList

def kwPrevious : List Char := "previous".toList

def kwBack : List Char := "back".toList

def kwReadAll : List Char := "read all".toList

def kwStartReading : List Char := "start reading".toList

def kwStop : List Char := "stop".toList

def kwPause : List Char := "pause".toList

def kwMagnifierOn : List Char := "magnifier on".toList

def kwMagnifierOff : List Char := "magnifier off".toList

def kwFocusModeOn : List Char := "focus mode on".toList

def kwFocusOn : List Char := "focus on".toList

def kwFocusModeOff : List Char := "focus mode off".toList

def kwFocusOff : List Char := "focus off".toList

def kwBionicOn : List Char := "bionic on".toList

def kwBionicReadingOn : List Char := "bionic reading on".toList

def kwBionicOff : List Char := "bionic off".toList

def kwBionicReadingOff : List Char := "bionic reading off".toList

/-- The distinct actions a recognized transcript can trigger. -/
inductive VAction where
  | navNext
  | navPrev
  | readAllAct
  | stopAct
  | loupeSet (value : Bool)
  | focusSet (value : Bool)
  | bionicSet (value : Bool)
deriving DecidableEq, Repr

/-- The decision part of `processCommand`, `Reader.tsx` lines 182-233: the
source's if/else-if chain, transcribed condition for condition. -/
def interpretCommand (command : List Char) : Option VAction :=
  if containsSub command kwNext then some .navNext
  else if containsSub command kwPrevious || containsSub command kwBack then
    some .navPrev
  else if containsSub command kwReadAll || containsSub command kwStartReading then
    some .readAllAct
  else if containsSub command kwStop || containsSub command kwPause then
    some .stopAct
  else if containsSub command kwMagnifierOn then some (.loupeSet true)
  else if containsSub command kwMagnifierOff then some (.loupeSet false)
  else if containsSub command kwFocusModeOn || containsSub command kwFocusOn then
    some (.focusSet true)
  else if containsSub command kwFocusModeOff || containsSub command kwFocusOff then
    some (.focusSet false)
  else if containsSub command kwBionicOn || containsSub command kwBionicReadingOn then
    some (.bionicSet true)
  else if containsSub command kwBionicOff || containsSub command kwBionicReadingOff then
    some (.bionicSet false)
  else none

/-- The spec-side rule table: substring predicates paired with actions, in the
documented priority order. -/
def voiceRules : List ((List Char → Bool) × VAction) :=
  [ (fun c => containsSub c kwNext, .navNext),
    (fun c => containsSub c kwPrevious || containsSub c kwBack, .navPrev),
    (fun c => containsSub c kwReadAll || containsSub c kwStartReading, .readAllAct),
    (fun c => containsSub c kwStop || containsSub c kwPause, .stopAct),
    (fun c => containsSub c kwMagnifierOn, .loupeSet true),
    (fun c => containsSub c kwMagnifierOff, .loupeSet false),
    (fun c => containsSub c kwFocusModeOn || containsSub c kwFocusOn, .focusSet true),
    (fun c => containsSub c kwFocusModeOff || containsSub c kwFocusOff, .focusSet false),
    (fun c => containsSub c kwBionicOn || containsSub c kwBionicReadingOn, .bionicSet true),
    (fun c => containsSub c kwBionicOff || containsSub c kwBionicReadingOff, .bionicSet false) ]

/-- First-match evaluation of a rule table (the spec's "first match wins"). -/
def firstMatch (rules : List ((List Char → Bool) × VAction))
    (command : List Char) : Option VAction :=
  match rules with
  | [] => none
  | r :: rest => if r.1 command then some r.2 else firstMatch rest command

/-- Dispatch of at most one action against the reader state. -/
def dispatchVAction (a : Option VAction) (s : ReaderState) :
    ReaderState × List Effect :=
  match a with
  | none => (s, [])
  | some .navNext => voiceNext s
  | some .navPrev => voicePrev s
  | some .readAllAct => handleSpeakAll s
  | some .stopAct => handleStop s
  | some (.loupeSet v) =>
    ({ s with settings := { s.settings with isLoupeActive := v } }, [])
  | some (.focusSet v) =>
    ({ s with settings := { s.settings with isFocusMode := v } }, [])
  | some (.bionicSet v) =>
    ({ s with settings := { s.settings with isBionicReading := v } }, [])

/-- Model of `processCommand`, `Reader.tsx` lines 182-233: record the
transcript for display, then run the if/else-if chain. -/
def processCommand (s : ReaderState) (command : List Char) :
    ReaderState × List Effect :=
  dispatchVAction (interpretCommand command)
    { s with lastVoiceCommand := command }

/-- The annotation and highlight stores owned by `App.tsx` together with the
reader state: the per-session state affected by a document load. -/
structure SessionState where
  reader : ReaderState
  annotations : Nat → Option (List Char)
  highlights : HighlightStore

/-- Model of a document load: `handleFileUpload` (`App.tsx` lines 124-152)
clears the annotation and highlight stores and sets the new content, whose
change re-runs the `useEffect [content]` of `Reader.tsx` lines 68-73:
re-segment, clear the active index, and `handleStop()`. -/
def loadDocument (s : SessionState) (content : List Char) :
    SessionState × List Effect :=
  match handleStop { s.reader with
      paragraphs := segmentContent content,
      activeParagraphIndex := none } with
  | (r, es) =>
    ({ reader := r, annotations := fun _ => none, highlights := fun _ => [] },
      es)

/-- C7: Segmenting any raw document splits it on line breaks and retains a
line iff its trimmed form is nonempty, keeping the original untrimmed content
of each retained line in order (re-indexed contiguously from 0); in
particular "A\n\nB\n" segments to exactly ["A","B"] and "  \n" to []. -/
theorem claim_C7 :
    segmentContent ("A\n\nB\n".toList) = ["A".toList, "B".toList] ∧
    segmentContent ("  \n".toList) = [] ∧
    (∀ content line, line ∈ segmentContent content ↔
      line ∈ splitLines content ∧ 0 < (jsTrim line).length) ∧
    (∀ content, (segmentContent content).Sublist (splitLines content)) := by
  refine ⟨by decide, by decide, ?_, ?_⟩
  · intro content line
    simp [segmentContent, List.mem_filter]
  · intro content
    exact List.filter_sublist _

/-- C7 witness: the retention criterion instantiated on the first example. -/
theorem claim_C7_witness :
    "A".toList ∈ segmentContent ("A\n\nB\n".toList) ↔
      "A".toList ∈ splitLines ("A\n\nB\n".toList) ∧
        0 < (jsTrim ("A".toList)).length :=
  claim_C7.2.2.1 ("A\n\nB\n".toList) ("A".toList)

/-- C4 counterexample: `addHighlight` does not reject a malformed range.  The
range `start = 5, end = 2` violates `start < end`, yet the call stores it. -/
theorem counterexample_C4 :
    ¬ ValidRange ⟨5, 2, "x".toList, "1".toList⟩ ("ab".toList) ∧
    addHighlight (fun _ => []) 0 5 2 ("x".toList) ("1".toList) 0 =
      [⟨5, 2, "x".toList, "1".toList⟩] := by
  constructor
  · decide
  · simp [addHighlight]

/-- C4 (amended): `addHighlight` performs no validation at all: for every
input, valid or malformed, it appends the given range unchanged to the target
paragraph's list and leaves every other paragraph's list untouched. -/
theorem claim_C4 :
    ∀ (store : HighlightStore) (index start stop : Nat)
      (text id : List Char) (j : Nat),
      addHighlight store index start stop text id j =
        if j = index then store j ++ [⟨start, stop, text, id⟩] else store j := by
  intro store index start stop text id j
  rfl

/-- C8: every document load rebuilds the paragraph list wholesale from the
new content, resets the active paragraph index to null, forces playback to
Idle (cancelling any in-flight utterance), and clears all annotations and
highlights. -/
theorem claim_C8 :
    ∀ (s : SessionState) (content : List Char),
      (loadDocument s content).1.reader.paragraphs = segmentContent content ∧
      (loadDocument s content).1.reader.activeParagraphIndex = none ∧
      playbackState (loadDocument s content).1.reader = .Idle ∧
      (loadDocument s content).1.reader.isAutoAdvancing = false ∧
      Effect.cancelEngine ∈ (loadDocument s content).2 ∧
      (∀ i, (loadDocument s content).1.annotations i = none) ∧
      (∀ i, (loadDocument s content).1.highlights i = []) := by
  intro s content
  simp [loadDocument, handleStop, playbackState]

/-- C9 counterexample: the claimed invariant `fontSize ≤ 64` is not preserved
by the keyboard zoom-in shortcut: starting from the in-range value 64 it
produces 66. -/
theorem counterexample_C9 :
    (12 : Int) ≤ 64 ∧ (64 : Int) ≤ 64 ∧
    zoomInShortcut 64 = 66 ∧ ¬ zoomInShortcut 64 ≤ 64 := by
  decide

/-- C9 (amended): the toolbar buttons clamp `fontSize` to `[12, 64]` and the
keyboard zoom shortcuts clamp it to `[12, 72]`; hence from any starting value
in `[12, 64]` every fontSize operation stays within `[12, 72]`, but the
keyboard zoom-in may exceed 64 (up to 72). -/
theorem claim_C9 :
    ∀ fontSize : Int, 12 ≤ fontSize → fontSize ≤ 64 →
      (12 ≤ toolbarFontDecrease fontSize ∧ toolbarFontDecrease fontSize ≤ 64) ∧
      (12 ≤ toolbarFontIncrease fontSize ∧ toolbarFontIncrease fontSize ≤ 64) ∧
      (12 ≤ zoomInShortcut fontSize ∧ zoomInShortcut fontSize ≤ 72) ∧
      (12 ≤ zoomOutShortcut fontSize ∧ zoomOutShortcut fontSize ≤ 64) := by
  intro fontSize h1 h2
  unfold toolbarFontDecrease toolbarFontIncrease zoomInShortcut zoomOutShortcut
  omega

/-- C9 witness: the amended bounds at the default font size 22. -/
theorem claim_C9_witness :
    (12 ≤ toolbarFontDecrease 22 ∧ toolbarFontDecrease 22 ≤ 64) ∧
    (12 ≤ toolbarFontIncrease 22 ∧ toolbarFontIncrease 22 ≤ 64) ∧
    (12 ≤ zoomInShortcut 22 ∧ zoomInShortcut 22 ≤ 72) ∧
    (12 ≤ zoomOutShortcut 22 ∧ zoomOutShortcut 22 ≤ 64) :=
  claim_C9 22 (by decide) (by decide)

/-- Sample 3-paragraph state in the middle of continuous playback, used to
instantiate the hypothesis-bearing claims. -/
def sampleState : ReaderState :=
  { paragraphs := ["a".toList, "b".toList, "c".toList],
    activeParagraphIndex := some 0,
    isSpeaking := true,
    isContinuous := true,
    isAutoAdvancing := false,
    lastVoiceCommand := [],
    settings := ⟨false, false, false⟩ }

/-- C1: on an utterance-finished event for paragraph `i` during continuous
playback with `i` not last, the active index advances to exactly `i + 1`,
the new paragraph is scrolled into view and immediately submitted as the next
utterance, with no transition to Idle (and the programmatic flag consumed);
when `i` is the last paragraph or playback is not continuous, playback
transitions to Idle. -/
theorem claim_C1 :
    (∀ (s : ReaderState) (i : Int),
      s.isContinuous = true →
      s.activeParagraphIndex = some i →
      0 ≤ i → i < (s.paragraphs.length : Int) - 1 →
      (onUtteranceEnd s i).1.activeParagraphIndex = some (i + 1) ∧
      (onUtteranceEnd s i).1.isSpeaking = true ∧
      (onUtteranceEnd s i).1.isContinuous = true ∧
      (onUtteranceEnd s i).1.isAutoAdvancing = false ∧
      playbackState (onUtteranceEnd s i).1 = .SpeakingContinuous ∧
      (onUtteranceEnd s i).2 =
        [Effect.scrollIntoView (i + 1), Effect.cancelEngine,
          Effect.speakUtterance (i + 1)]) ∧
    (∀ (s : ReaderState) (i : Int),
      s.isContinuous = false ∨ (s.paragraphs.length : Int) - 1 ≤ i →
      (onUtteranceEnd s i).1.isSpeaking = false ∧
      (onUtteranceEnd s i).1.isContinuous = false ∧
      playbackState (onUtteranceEnd s i).1 = .Idle ∧
      (onUtteranceEnd s i).2 = []) := by
  constructor
  · intro s i hcont hact hge hlt
    have hne : ¬ (i + 1 = i) := by omega
    have hge' : (0 : Int) ≤ i + 1 := by omega
    have hlen : i + 1 < (s.paragraphs.length : Int) := by omega
    simp [onUtteranceEnd, setActiveIndex, activeIndexEffect, speakText,
      playbackState, hcont, hact, hlt, hne, hge', hlen]
  · intro s i hcase
    have hcond : ¬ (s.isContinuous = true ∧ i < (s.paragraphs.length : Int) - 1) := by
      rcases hcase with h | h
      · simp [h]
      · intro hc
        omega
    simp only [onUtteranceEnd]
    rw [if_neg (by simpa using hcond)]
    simp [playbackState]

/-- C1 witness: in the sample state, finishing paragraph 0 advances to 1 with
scroll and immediate re-submission; finishing the last paragraph 2 goes Idle. -/
theorem claim_C1_witness :
    ((onUtteranceEnd sampleState 0).1.activeParagraphIndex = some 1 ∧
      (onUtteranceEnd sampleState 0).1.isSpeaking = true ∧
      (onUtteranceEnd sampleState 0).1.isContinuous = true ∧
      (onUtteranceEnd sampleState 0).1.isAutoAdvancing = false ∧
      playbackState (onUtteranceEnd sampleState 0).1 = .SpeakingContinuous ∧
      (onUtteranceEnd sampleState 0).2 =
        [Effect.scrollIntoView 1, Effect.cancelEngine,
          Effect.speakUtterance 1]) ∧
    ((onUtteranceEnd sampleState 2).1.isSpeaking = false ∧
      (onUtteranceEnd sampleState 2).1.isContinuous = false ∧
      playbackState (onUtteranceEnd sampleState 2).1 = .Idle ∧
      (onUtteranceEnd sampleState 2).2 = []) :=
  ⟨claim_C1.1 sampleState 0 (by decide) (by decide) (by decide) (by decide),
    claim_C1.2 sampleState 2 (Or.inr (by decide))⟩

/-- Core of the manual-interruption rule: a manual index change (programmatic
flag clear) while speaking routes the index watcher into `handleStop`. -/
theorem manual_setActiveIndex_stops (s : ReaderState) (i : Int)
    (haa : s.isAutoAdvancing = false) (hsp : s.isSpeaking = true)
    (hne : some i ≠ s.activeParagraphIndex) :
    setActiveIndex s (some i) =
      ({ s with
          activeParagraphIndex := some i
          isSpeaking := false
          isContinuous := false
          isAutoAdvancing := false },
        [Effect.cancelEngine]) := by
  unfold setActiveIndex
  rw [if_neg hne]
  unfold activeIndexEffect
  simp [haa, hsp, handleStop]

/-- C2: while speaking (single or continuous), every manual change of the
active paragraph index — paragraph click, arrow-key navigation, or voice
next/previous — invokes stop: the engine is cancelled and playback becomes
Idle; only the programmatic auto-advance transition keeps speaking. -/
theorem claim_C2 :
    (∀ (s : ReaderState) (i : Int),
      s.isAutoAdvancing = false → s.isSpeaking = true →
      some i ≠ s.activeParagraphIndex →
      (handleParagraphClick s i).1.isSpeaking = false ∧
      (handleParagraphClick s i).1.isContinuous = false ∧
      playbackState (handleParagraphClick s i).1 = .Idle ∧
      Effect.cancelEngine ∈ (handleParagraphClick s i).2) ∧
    (∀ s : ReaderState,
      s.isAutoAdvancing = false → s.isSpeaking = true →
      0 < s.paragraphs.length →
      some (arrowDownTarget s) ≠ s.activeParagraphIndex →
      (arrowDownKey s).1.isSpeaking = false ∧
      (arrowDownKey s).1.isContinuous = false ∧
      playbackState (arrowDownKey s).1 = .Idle ∧
      Effect.cancelEngine ∈ (arrowDownKey s).2) ∧
    (∀ s : ReaderState,
      s.isAutoAdvancing = false → s.isSpeaking = true →
      0 < s.paragraphs.length →
      some (arrowUpTarget s) ≠ s.activeParagraphIndex →
      (arrowUpKey s).1.isSpeaking = false ∧
      (arrowUpKey s).1.isContinuous = false ∧
      playbackState (arrowUpKey s).1 = .Idle ∧
      Effect.cancelEngine ∈ (arrowUpKey s).2) ∧
    (∀ s : ReaderState,
      s.isAutoAdvancing = false → s.isSpeaking = true →
      some (voiceNextTarget s) ≠ s.activeParagraphIndex →
      (voiceNext s).1.isSpeaking = false ∧
      (voiceNext s).1.isContinuous = false ∧
      playbackState (voiceNext s).1 = .Idle ∧
      Effect.cancelEngine ∈ (voiceNext s).2) ∧
    (∀ s : ReaderState,
      s.isAutoAdvancing = false → s.isSpeaking = true →
      some (voicePrevTarget s) ≠ s.activeParagraphIndex →
      (voicePrev s).1.isSpeaking = false ∧
      (voicePrev s).1.isContinuous = false ∧
      playbackState (voicePrev s).1 = .Idle ∧
      Effect.cancelEngine ∈ (voicePrev s).2) ∧
    (∀ (s : ReaderState) (i : Int),
      s.isAutoAdvancing = true →
      0 ≤ i → i < (s.paragraphs.length : Int) →
      some i ≠ s.activeParagraphIndex →
      (setActiveIndex s (some i)).1.isSpeaking = true ∧
      (setActiveIndex s (some i)).1.isContinuous = s.isContinuous ∧
      Effect.speakUtterance i ∈ (setActiveIndex s (some i)).2) := by
  refine ⟨?_, ?_, ?_, ?_, ?_, ?_⟩
  · intro s i haa hsp hne
    unfold handleParagraphClick
    rw [manual_setActiveIndex_stops s i haa hsp hne]
    simp [playbackState]
  · intro s haa hsp hlen hne
    unfold arrowDownKey
    rw [if_pos hlen, manual_setActiveIndex_stops s _ haa hsp hne]
    simp [playbackState]
  · intro s haa hsp hlen hne
    unfold arrowUpKey
    rw [if_pos hlen, manual_setActiveIndex_stops s _ haa hsp hne]
    simp [playbackState]
  · intro s haa hsp hne
    unfold voiceNext
    rw [manual_setActiveIndex_stops s _ haa hsp hne]
    simp [playbackState]
  · intro s haa hsp hne
    unfold voicePrev
    rw [manual_setActiveIndex_stops s _ haa hsp hne]
    simp [playbackState]
  · intro s i haa hge hlt hne
    unfold setActiveIndex
    rw [if_neg hne]
    unfold activeIndexEffect
    simp [haa, speakText, hge, hlt]

/-- C2 witness: clicking paragraph 2 and the voice command target during
continuous playback of paragraph 0 both interrupt the audio. -/
theorem claim_C2_witness :
    ((handleParagraphClick sampleState 2).1.isSpeaking = false ∧
      (handleParagraphClick sampleState 2).1.isContinuous = false ∧
      playbackState (handleParagraphClick sampleState 2).1 = .Idle ∧
      Effect.cancelEngine ∈ (handleParagraphClick sampleState 2).2) ∧
    ((voiceNext sampleState).1.isSpeaking = false ∧
      (voiceNext sampleState).1.isContinuous = false ∧
      playbackState (voiceNext sampleState).1 = .Idle ∧
      Effect.cancelEngine ∈ (voiceNext sampleState).2) :=
  ⟨claim_C2.1 sampleState 2 (by decide) (by decide) (by decide),
    claim_C2.2.2.2.1 sampleState (by decide) (by decide) (by decide)⟩

/-- `speakText` never touches the recorded transcript. -/
theorem lastVC_speakText (s : ReaderState) (i : Int) :
    (speakText s i).1.lastVoiceCommand = s.lastVoiceCommand := by
  unfold speakText
  split
  · rfl
  · rfl

/-- The index watcher never touches the recorded transcript. -/
theorem lastVC_activeIndexEffect (s : ReaderState) :
    (activeIndexEffect s).1.lastVoiceCommand = s.lastVoiceCommand := by
  unfold activeIndexEffect
  split
  · rfl
  · split
    · exact lastVC_speakText _ _
    · split
      · rfl
      · rfl

/-- `setActiveIndex` never touches the recorded transcript. -/
theorem lastVC_setActiveIndex (s : ReaderState) (i : Option Int) :
    (setActiveIndex s i).1.lastVoiceCommand = s.lastVoiceCommand := by
  unfold setActiveIndex
  split
  · rfl
  · exact lastVC_activeIndexEffect _

/-- `handleSpeakAll` never touches the recorded transcript. -/
theorem lastVC_handleSpeakAll (s : ReaderState) :
    (handleSpeakAll s).1.lastVoiceCommand = s.lastVoiceCommand := by
  unfold handleSpeakAll
  split
  · exact lastVC_setActiveIndex _ _
  · exact lastVC_speakText _ _

/-- Voice `next` never touches the recorded transcript. -/
theorem lastVC_voiceNext (s : ReaderState) :
    (voiceNext s).1.lastVoiceCommand = s.lastVoiceCommand := by
  unfold voiceNext
  exact lastVC_setActiveIndex s (some (voiceNextTarget s))

/-- Voice `previous`/`back` never touches the recorded transcript. -/
theorem lastVC_voicePrev (s : ReaderState) :
    (voicePrev s).1.lastVoiceCommand = s.lastVoiceCommand := by
  unfold voicePrev
  exact lastVC_setActiveIndex s (some (voicePrevTarget s))

/-- No dispatched action touches the recorded transcript. -/
theorem lastVC_dispatchVAction (a : Option VAction) (s : ReaderState) :
    (dispatchVAction a s).1.lastVoiceCommand = s.lastVoiceCommand := by
  cases a with
  | none => rfl
  | some act =>
    cases act with
    | navNext => exact lastVC_voiceNext s
    | navPrev => exact lastVC_voicePrev s
    | readAllAct => exact lastVC_handleSpeakAll s
    | stopAct => rfl
    | loupeSet v => rfl
    | focusSet v => rfl
    | bionicSet v => rfl

/-- C6: for every final transcript, the interpreter is exactly first-match
evaluation of the fixed priority rule table (next; previous/back; read
all/start reading; stop/pause; magnifier, focus and bionic toggles), so at
most one action fires; the transcript is always recorded for display; "please
read all of this" maps to the read-all action; an unmatched transcript is
recorded and triggers nothing. -/
theorem claim_C6 :
    (∀ command, interpretCommand command = firstMatch voiceRules command) ∧
    (∀ (s : ReaderState) command,
      (processCommand s command).1.lastVoiceCommand = command) ∧
    interpretCommand ("please read all of this".toList) =
      some VAction.readAllAct ∧
    (∀ (s : ReaderState) command,
      interpretCommand command = none →
      processCommand s command =
        ({ s with lastVoiceCommand := command }, [])) := by
  refine ⟨?_, ?_, by decide, ?_⟩
  · intro command
    simp only [interpretCommand, voiceRules, firstMatch]
  · intro s command
    unfold processCommand
    rw [lastVC_dispatchVAction]
  · intro s command h
    unfold processCommand
    rw [h]
    rfl

/-- C6 witness: a transcript matching no rule is recorded and inert. -/
theorem claim_C6_witness :
    processCommand sampleState ("hello there".toList) =
      ({ sampleState with lastVoiceCommand := "hello there".toList }, []) :=
  claim_C6.2.2.2 sampleState ("hello there".toList) (by decide)

/-- C10: for every paragraph text, bionic flag, and highlight list whose
ranges satisfy `start ≤ end`, concatenating the character content of all
pieces emitted by the render pipeline (plain runs, highlighted runs, and the
bionic bold-prefix/plain-suffix pieces) restores the original text exactly:
rendering restyles but never inserts, drops, duplicates or reorders
characters, even when overlapping highlights are discarded. -/
theorem claim_C10 :
    ∀ (bionic : Bool) (text : List Char) (hs : List Highlight),
      (∀ h ∈ hs, h.start ≤ h.stop) →
      joinL (renderPieces bionic text hs) = text := by
  intro bionic text hs hvalid
  unfold renderPieces
  have hrun : ∀ runs : List Run,
      joinL (runs.flatMap fun r =>
        if bionic then (applyBionicReading (runContent r)).flatMap bpartPieces
        else [runContent r]) = joinL (runs.map runContent) := by
    intro runs
    induction runs with
    | nil => simp [joinL]
    | cons r rs ih =>
      rw [List.flatMap_cons, joinL_append, ih, List.map_cons]
      cases bionic with
      | false => simp [joinL]
      | true => simp [joinL, joinL_bionic]
  rw [hrun]
  unfold renderParagraphContent
  by_cases hemp : hs.isEmpty
  · simp [hemp, joinL, runContent]
  · rw [if_neg hemp]
    have hvalid' : ∀ h ∈ sortByStart hs, h.start ≤ h.stop := by
      intro h hm
      exact hvalid h ((mem_sortByStart h hs).mp hm)
    have hwalk := joinL_renderWalk text (sortByStart hs) 0 hvalid'
    simpa using hwalk

/-- C10 witness: the pipeline on a concrete text with overlapping
highlights. -/
theorem claim_C10_witness :
    joinL (renderPieces false ("hello world".toList)
      [⟨0, 5, [], []⟩, ⟨3, 8, [], []⟩]) = "hello world".toList :=
  claim_C10 false ("hello world".toList) [⟨0, 5, [], []⟩, ⟨3, 8, [], []⟩]
    (by decide)

/-- C3: rendering resolves overlapping highlights deterministically: the
paragraph's highlights are stably sorted by start ascending; the walk skips
entirely (drops, does not clip) every highlight starting before `lastIndex`
and otherwise emits the plain gap (when nonempty) followed by the highlighted
span, advancing `lastIndex` to the highlight's end; a trailing plain run is
emitted when text remains.  In particular `{0,5}` and `{3,8}` on text of
length ≥ 8 render exactly one highlighted run `[0,5)`, while `{0,5}` and
`{5,8}` render both. -/
theorem claim_C3 :
    (∀ hs : List Highlight,
      (sortByStart hs).Pairwise (fun a b => a.start ≤ b.start) ∧
      (sortByStart hs).Perm hs) ∧
    (∀ (hs : List Highlight) (v : Nat),
      (sortByStart hs).filter (fun x => x.start = v) =
        hs.filter (fun x => x.start = v)) ∧
    (∀ (text : List Char) (lastIndex : Nat) (h : Highlight)
      (rest : List Highlight),
      h.start < lastIndex →
      renderWalk text lastIndex (h :: rest) = renderWalk text lastIndex rest) ∧
    (∀ (text : List Char) (lastIndex : Nat) (h : Highlight)
      (rest : List Highlight),
      lastIndex ≤ h.start →
      renderWalk text lastIndex (h :: rest) =
        (if lastIndex < h.start
          then [Run.plain (jsSlice text lastIndex h.start)] else []) ++
        Run.highlighted (jsSlice text h.start h.stop) ::
          renderWalk text h.stop rest) ∧
    (∀ text : List Char, 8 ≤ text.length →
      renderParagraphContent text [⟨0, 5, [], []⟩, ⟨3, 8, [], []⟩] =
        [Run.highlighted (text.take 5), Run.plain (text.drop 5)]) ∧
    (∀ text : List Char, 8 ≤ text.length →
      renderParagraphContent text [⟨0, 5, [], []⟩, ⟨5, 8, [], []⟩] =
        Run.highlighted (text.take 5) ::
          Run.highlighted (jsSlice text 5 8) ::
            (if 8 < text.length then [Run.plain (text.drop 8)] else [])) := by
  refine ⟨?_, ?_, ?_, ?_, ?_, ?_⟩
  · intro hs
    exact ⟨sorted_sortByStart hs, perm_sortByStart hs⟩
  · intro hs v
    exact stable_sortByStart hs v
  · intro text lastIndex h rest hskip
    rw [renderWalk, if_pos hskip]
  · intro text lastIndex h rest hle
    rw [renderWalk, if_neg (by omega)]
  · intro text hlen
    have h5 : 5 < text.length := by omega
    unfold renderParagraphContent
    rw [if_neg (by decide)]
    simp [sortByStart, insertByStart, renderWalk, jsSlice, h5]
  · intro text hlen
    unfold renderParagraphContent
    rw [if_neg (by decide)]
    simp [sortByStart, insertByStart, renderWalk, jsSlice]

/-- C3 witness: both concrete overlap examples on an 8-character text. -/
theorem claim_C3_witness :
    renderParagraphContent ("abcdefgh".toList)
        [⟨0, 5, [], []⟩, ⟨3, 8, [], []⟩] =
      [Run.highlighted ("abcdefgh".toList.take 5),
        Run.plain ("abcdefgh".toList.drop 5)] :=
  claim_C3.2.2.2.2.1 ("abcdefgh".toList) (by decide)

/-- The first element surviving `dropWhile` fails the predicate. -/
theorem dropWhile_head_false (p : Char → Bool) (l : List Char) (c : Char)
    (rest : List Char) (h : l.dropWhile p = c :: rest) : p c = false := by
  induction l with
  | nil => cases h
  | cons a as ih =>
    rw [List.dropWhile] at h
    by_cases hp : p a = true
    · rw [hp] at h
      simp at h
      exact ih h
    · rw [Bool.not_eq_true] at hp
      rw [hp] at h
      simp at h
      rw [← h.1]
      exact hp

/-- Every element of `takeWhile p` satisfies `p`. -/
theorem all_takeWhile' (p : Char → Bool) (l : List Char) :
    (l.takeWhile p).all p = true := by
  induction l with
  | nil => simp [List.takeWhile]
  | cons a as ih =>
    rw [List.takeWhile]
    by_cases hp : p a = true
    · rw [hp]
      simp [hp, ih]
    · rw [Bool.not_eq_true] at hp
      rw [hp]
      simp

/-- Every part produced by the whitespace splitter is either whitespace-free
(a token) or a nonempty all-whitespace run. -/
theorem jsSplitWs_classify (s : List Char) :
    ∀ part ∈ jsSplitWs s, part.all (fun c => !isWs c) = true ∨
      (part ≠ [] ∧ part.all isWs = true) := by
  induction s using jsSplitWs.induct with
  | case1 s h =>
    rw [jsSplitWs_eq_nil s h]
    intro part hp
    simp at hp
    subst hp
    exact Or.inl (all_takeWhile' _ s)
  | case2 s c rest h ih =>
    rw [jsSplitWs_eq_cons s c rest h]
    intro part hp
    rcases List.mem_cons.mp hp with rfl | hp2
    · exact Or.inl (all_takeWhile' _ s)
    · rcases List.mem_cons.mp hp2 with rfl | hp3
      · refine Or.inr ⟨by simp, ?_⟩
        have hc : isWs c = true := by
          have := dropWhile_head_false (fun c => !isWs c) s c rest h
          simp at this
          exact this
        simp [hc, all_takeWhile' isWs rest]
      · exact ih part hp3

/-- C5: the bionic transform splits every input on maximal whitespace runs,
preserves each whitespace run unchanged in place, and maps every token to an
emphasized prefix of `B` characters followed by the de-emphasized remainder,
where `B = 1` for length ≤ 3, `B = 2` for length in (3,5], and
`B = ceil(0.4 × length)` above 5; in particular "I" → bold "I" / plain "",
"cat" → "c"/"at", "hello" → "he"/"llo", "reading" → "rea"/"ding". -/
theorem claim_C5 :
    (∀ L, boldLength L =
      if L ≤ 3 then 1 else if L ≤ 5 then 2 else (2 * L + 4) / 5) ∧
    (∀ s, joinL ((applyBionicReading s).flatMap bpartPieces) = s) ∧
    (∀ s run, BPart.ws run ∈ applyBionicReading s →
      run ≠ [] ∧ run.all isWs = true) ∧
    (∀ s bold plain, BPart.word bold plain ∈ applyBionicReading s →
      (bold ++ plain).all (fun c => !isWs c) = true ∧
      bold = (bold ++ plain).take (boldLength (bold ++ plain).length) ∧
      plain = (bold ++ plain).drop (boldLength (bold ++ plain).length)) ∧
    applyBionicReading ("I".toList) = [BPart.word ("I".toList) []] ∧
    applyBionicReading ("cat".toList) =
      [BPart.word ("c".toList) ("at".toList)] ∧
    applyBionicReading ("hello".toList) =
      [BPart.word ("he".toList) ("llo".toList)] ∧
    applyBionicReading ("reading".toList) =
      [BPart.word ("rea".toList) ("ding".toList)] := by
  refine ⟨?_, joinL_bionic, ?_, ?_, ?_, ?_, ?_, ?_⟩
  · intro L
    unfold boldLength
    split_ifs <;> omega
  · intro s run hmem
    unfold applyBionicReading at hmem
    rw [List.mem_map] at hmem
    obtain ⟨part, hp, heq⟩ := hmem
    by_cases hcond : (!part.isEmpty && part.all isWs) = true
    · rw [if_pos hcond] at heq
      cases heq
      rw [Bool.and_eq_true] at hcond
      refine ⟨?_, hcond.2⟩
      intro hnil
      rw [hnil] at hcond
      simp at hcond
    · rw [if_neg hcond] at heq
      cases heq
  · intro s bold plain hmem
    unfold applyBionicReading at hmem
    rw [List.mem_map] at hmem
    obtain ⟨part, hp, heq⟩ := hmem
    by_cases hcond : (!part.isEmpty && part.all isWs) = true
    · rw [if_pos hcond] at heq
      cases heq
    · rw [if_neg hcond] at heq
      cases heq
      have hjoin : part.take (boldLength part.length) ++
          part.drop (boldLength part.length) = part :=
        List.take_append_drop _ _
      rw [hjoin]
      refine ⟨?_, rfl, rfl⟩
      rcases jsSplitWs_classify s part hp with htok | hws
      · exact htok
      · exfalso
        apply hcond
        simp [hws.2]
        intro habs
        exact hws.1 habs
  · unfold applyBionicReading
    rw [jsSplitWs_eq_nil _ (by decide)]
    decide
  · unfold applyBionicReading
    rw [jsSplitWs_eq_nil _ (by decide)]
    decide
  · unfold applyBionicReading
    rw [jsSplitWs_eq_nil _ (by decide)]
    decide
  · unfold applyBionicReading
    rw [jsSplitWs_eq_nil _ (by decide)]
    decide

/-- C5 witness: the whitespace-run and token characterizations instantiated
on a lone space and on "cat". -/
theorem claim_C5_witness :
    (" ".toList ≠ [] ∧ (" ".toList).all isWs = true) ∧
    (("c".toList ++ "at".toList).all (fun c => !isWs c) = true ∧
      "c".toList =
        ("c".toList ++ "at".toList).take
          (boldLength ("c".toList ++ "at".toList).length) ∧
      "at".toList =
        ("c".toList ++ "at".toList).drop
          (boldLength ("c".toList ++ "at".toList).length)) :=
  ⟨claim_C5.2.2.1 (" ".toList) (" ".toList)
      (by
        unfold applyBionicReading
        rw [jsSplitWs_eq_cons (" ".toList) ' ' [] (by decide)]
        rw [show List.dropWhile isWs ([] : List Char) = [] from rfl]
        rw [jsSplitWs_eq_nil [] (by decide)]
        decide),
    claim_C5.2.2.2.1 ("cat".toList) ("c".toList) ("at".toList)
      (by
        unfold applyBionicReading
        rw [jsSplitWs_eq_nil ("cat".toList) (by decide)]
        decide)⟩
